import Mathlib

/-!
Verification of the RAG core of this repository (app/services/rag.py and
app/services/embeddings.py): token-window chunking, keyword extraction,
cosine similarity, hybrid dense/lexical search with score fusion,
content-change detection, and indexing orchestration.

Modelling conventions:
* Text is modelled at two levels.  The tokenizer (tiktoken, an external
  library) maps text to a token sequence; `chunk_text` is embedded directly
  on the token sequence (`List Nat`).  Character-level text (for keyword
  extraction) is modelled as a list of Unicode code points (`List Nat`),
  with the character classes of the Python `re` module restricted to their
  ASCII fragment, which covers the corpus of the spec examples.
* Floating point scores are modelled as exact rationals; the float
  literals 0.7 and 0.3 are the rationals 7/10 and 3/10.
* The embedding provider, the BM25 library (rank_bm25) and SHA-256
  (hashlib) are external collaborators; they enter the model as function
  parameters, exactly at the call boundary the source uses.
* Fallible calls (the embedding provider) are modelled with `Except`; a
  float division whose IEEE result is not finite is modelled with
  `Option` (`none` standing for the nan/inf that numpy produces).
* The database session is modelled as an explicit state: a committed
  chunk list plus a pending (uncommitted) chunk list; `commit` publishes
  the pending list.  Python `list.sort(key=..., reverse=True)` is a
  stable descending sort, modelled by `List.insertionSort` with the
  relation `left score is at least right score`, which is stable.
-/

namespace RagCore

/-! ## Chunker (RAGService.chunk_text, rag.py lines 27-44)

The source loop, over the encoded token list:
`start = 0; while start < len(tokens): emit tokens[start:start+chunk_size];
start = start + chunk_size - overlap; break once start >= len(tokens)`.
The recursion is embedded with an explicit fuel counter so that it is
structural; `tokens.length + 1` units of fuel are enough whenever
`overlap < chunk_size` (theorem `chunk_text_terminates`). -/

def chunkTextFuel (chunk_size overlap : Nat) (tokens : List Nat) :
    Nat → Nat → Option (List (List Nat))
  | 0, _ => none
  | fuel + 1, start =>
    if start < tokens.length then
      match chunkTextFuel chunk_size overlap tokens fuel (start + chunk_size - overlap) with
      | some rest => some (((tokens.drop start).take chunk_size) :: rest)
      | none => none
    else
      some []

/-- `RAGService.chunk_text` with the configured `chunk_size = 500` and
`chunk_overlap = 50`, on the token sequence of the input text. -/
def chunk_text (tokens : List Nat) : List (List Nat) :=
  (chunkTextFuel 500 50 tokens (tokens.length + 1) 0).getD []

/-! ## Lexical feature extractor (RAGService.extract_keywords, rag.py 46-60)

Characters are code points.  `pyLowerCp` is `str.lower`, `isWordCp` is the
regex class `\w` (alphanumeric or underscore), `isSpaceCp` is `\s`, all on
their ASCII fragment. -/

def pyLowerCp (n : Nat) : Nat :=
  if 65 ≤ n ∧ n ≤ 90 then n + 32 else n

def isWordCp (n : Nat) : Bool :=
  (48 ≤ n && n ≤ 57) || (65 ≤ n && n ≤ 90) || (97 ≤ n && n ≤ 122) || n == 95

def isSpaceCp (n : Nat) : Bool :=
  n == 32 || n == 9 || n == 10 || n == 13 || n == 11 || n == 12

/-- `re.sub(r'[^\w\s]', ' ', text)`: every character that is neither a word
character nor whitespace becomes a space (code point 32). -/
def subNonWord (l : List Nat) : List Nat :=
  l.map (fun n => if isWordCp n || isSpaceCp n then n else 32)

/-- Accumulator worker for `str.split()`: splits on whitespace runs and
drops empty fragments. -/
def splitAux : List Nat → List Nat → List (List Nat)
  | [], acc => if acc.isEmpty then [] else [acc]
  | c :: rest, acc =>
    if isSpaceCp c then
      if acc.isEmpty then splitAux rest [] else acc :: splitAux rest []
    else
      splitAux rest (acc ++ [c])

/-- Python `str.split()` with no separator argument. -/
def pySplit (l : List Nat) : List (List Nat) :=
  splitAux l []

/-- Code points of a string literal, for concrete instances. -/
def strToCp (s : String) : List Nat :=
  s.data.map Char.toNat

/-- The fixed stop-word set of `extract_keywords`. -/
def stop_words : List (List Nat) :=
  [strToCp "the", strToCp "a", strToCp "an", strToCp "is", strToCp "are",
   strToCp "was", strToCp "were", strToCp "be", strToCp "been",
   strToCp "have", strToCp "has", strToCp "had", strToCp "do",
   strToCp "does", strToCp "did", strToCp "will", strToCp "would",
   strToCp "could", strToCp "should", strToCp "may", strToCp "might",
   strToCp "can", strToCp "this", strToCp "that", strToCp "these",
   strToCp "those", strToCp "i", strToCp "you", strToCp "he",
   strToCp "she", strToCp "it", strToCp "we", strToCp "they",
   strToCp "and", strToCp "or", strToCp "but", strToCp "in",
   strToCp "on", strToCp "at", strToCp "to", strToCp "for",
   strToCp "of", strToCp "with"]

/-- The filter `len(w) > 2 and w not in stop_words`. -/
def keepWord (w : List Nat) : Bool :=
  decide (w.length > 2) && !(stop_words.contains w)

/-- `' '.join(words)`. -/
def joinWords : List (List Nat) → List Nat
  | [] => []
  | [w] => w
  | w :: w2 :: ws => w ++ 32 :: joinWords (w2 :: ws)

/-- `RAGService.extract_keywords`: lowercase, replace `[^\w\s]` by a space,
split on whitespace, keep words longer than 2 that are not stop words,
join with single spaces. -/
def extract_keywords (t : List Nat) : List Nat :=
  joinWords ((pySplit (subNonWord (t.map pyLowerCp))).filter keepWord)

/-- The character rule exactly as the claim words it: every character that
is not alphanumeric or whitespace becomes a space.  It differs from the
source rule `[^\w\s]` on the underscore, which `\w` keeps. -/
def subNonAlnumClaim (l : List Nat) : List Nat :=
  l.map (fun n =>
    if (48 ≤ n && n ≤ 57) || (65 ≤ n && n ≤ 90) || (97 ≤ n && n ≤ 122)
        || isSpaceCp n then n else 32)

/-- The keyword pipeline with the claim wording of the character rule. -/
def extract_keywords_claim (t : List Nat) : List Nat :=
  joinWords ((pySplit (subNonAlnumClaim (t.map pyLowerCp))).filter keepWord)

/-- The keyword pipeline as the amended claim words it: the replaced
characters are those that are not alphanumeric, not an underscore and not
whitespace. -/
def subNonWordAmended (l : List Nat) : List Nat :=
  l.map (fun n =>
    if !((48 ≤ n && n ≤ 57) || (65 ≤ n && n ≤ 90) || (97 ≤ n && n ≤ 122)
        || n == 95 || isSpaceCp n) then 32 else n)

/-- Amended-claim keyword extraction (underscore kept, as the source does). -/
def extract_keywords_amended (t : List Nat) : List Nat :=
  joinWords ((pySplit (subNonWordAmended (t.map pyLowerCp))).filter keepWord)

/-! ## Cosine similarity (EmbeddingService.cosine_similarity, embeddings.py 33-37)

`np.dot(a, b) / (np.linalg.norm(a) * np.linalg.norm(b))` with no guard on
the denominator.  The IEEE quotient is a finite real exactly when the
denominator is nonzero; a zero denominator yields nan or an infinity,
modelled by `none`. -/

noncomputable def dotList (a b : List ℝ) : ℝ :=
  (List.zipWith (fun x y => x * y) a b).sum

/-- `np.linalg.norm`: the Euclidean norm. -/
noncomputable def pyNorm (a : List ℝ) : ℝ :=
  Real.sqrt (dotList a a)

/-- `EmbeddingService.cosine_similarity`; `none` is the non-finite float
that numpy produces when the denominator is zero. -/
noncomputable def cosine_similarity (v1 v2 : List ℝ) : Option ℝ :=
  if pyNorm v1 * pyNorm v2 = 0 then none
  else some (dotList v1 v2 / (pyNorm v1 * pyNorm v2))

/-! ## Chunk store model (app/models/chunk.py) -/

structure Chunk where
  id : Nat
  notion_page_id : Nat
  chunk_index : Nat
  text : List Nat
  embedding : Option (List ℚ)
  keywords : List Nat
  token_count : Nat
deriving DecidableEq

/-- Python truthiness of the `embedding` column: `None` and the empty list
are falsy. -/
def embTruthy : Option (List ℚ) → Bool
  | none => false
  | some e => !e.isEmpty

/-! ## Hybrid search (RAGService.hybrid_search, rag.py 92-134)

The two external scorers are parameters: `cos` is the dense scorer
(cosine similarity on the stored JSON vectors) and `bm25Fn` is
`BM25Okapi(corpus).get_scores` of the rank_bm25 library.  The query
embedding is an `Except` value: the provider call can fail. -/

/-- Python `max` on a nonempty list (the callers guard emptiness). -/
def maxQ : List ℚ → ℚ
  | [] => 0
  | x :: xs => xs.foldl max x

/-- The dense pass: one `(chunk, score)` pair per chunk with a truthy
embedding. -/
def vectorScores (cos : List ℚ → List ℚ → ℚ) (qe : List ℚ)
    (chunks : List Chunk) : List (Chunk × ℚ) :=
  (chunks.filter (fun c => embTruthy c.embedding)).map
    (fun c => (c, cos qe (c.embedding.getD [])))

/-- `next((s for c, s in vector_scores if c.id == chunk.id), 0)`. -/
def lookupVector (vscores : List (Chunk × ℚ)) (c : Chunk) : ℚ :=
  match vscores.find? (fun p => p.1.id == c.id) with
  | some p => p.2
  | none => 0

/-- `max([s for _, s in vector_scores]) if vector_scores else 1`. -/
def maxVector (vscores : List (Chunk × ℚ)) : ℚ :=
  if vscores.length > 0 then maxQ (vscores.map (fun p => p.2)) else 1

/-- `max(bm25_scores) if len(bm25_scores) > 0 and max(bm25_scores) > 0 else 1`. -/
def maxBm25 (bm25_scores : List ℚ) : ℚ :=
  if bm25_scores.length > 0 ∧ maxQ bm25_scores > 0 then maxQ bm25_scores else 1

/-- The per-chunk fused score: each signal divided by its guarded maximum
(the dense term is 0 when `max_vector` is not positive) and weighted
0.7 dense + 0.3 lexical. -/
def fusedScore (vscores : List (Chunk × ℚ)) (bm25_scores : List ℚ)
    (i : Nat) (c : Chunk) : ℚ :=
  (7 / 10 : ℚ) *
      (if maxVector vscores > 0 then lookupVector vscores c / maxVector vscores else 0)
    + (3 / 10 : ℚ) *
      (if maxBm25 bm25_scores > 0 then bm25_scores.getD i 0 / maxBm25 bm25_scores else 0)

/-- The fused, unsorted score list, one entry per chunk in store order. -/
def combinedScores (cos : List ℚ → List ℚ → ℚ) (qe : List ℚ)
    (bm25_scores : List ℚ) (chunks : List Chunk) : List (Chunk × ℚ) :=
  chunks.enum.map (fun ic =>
    (ic.2, fusedScore (vectorScores cos qe chunks) bm25_scores ic.1 ic.2))

/-- The descending stable sort `combined_scores.sort(key=lambda x: x[1],
reverse=True)`. -/
def sortByScore (l : List (Chunk × ℚ)) : List (Chunk × ℚ) :=
  l.insertionSort (fun a b => b.2 ≤ a.2)

/-- The corpus handed to BM25: `[chunk.keywords.split() for chunk in chunks]`. -/
def bm25Corpus (chunks : List Chunk) : List (List (List Nat)) :=
  chunks.map (fun c => pySplit c.keywords)

/-- `RAGService.hybrid_search`. -/
def hybrid_search (cos : List ℚ → List ℚ → ℚ)
    (bm25Fn : List (List (List Nat)) → List (List Nat) → List ℚ)
    (embedQ : Except String (List ℚ))
    (chunks : List Chunk) (query : List Nat) (top_k : Nat) :
    Except String (List (Chunk × ℚ)) :=
  if chunks.isEmpty then .ok []
  else
    match embedQ with
    | .error e => .error e
    | .ok qe =>
      let bm25_scores := bm25Fn (bm25Corpus chunks) (pySplit (extract_keywords query))
      .ok ((sortByScore (combinedScores cos qe bm25_scores chunks)).take top_k)

/-- `RAGService.get_context_for_query`; `fmt` is the external float
formatting `"{score:.2f}"`. -/
def get_context_for_query (fmt : ℚ → List Nat) (cos : List ℚ → List ℚ → ℚ)
    (bm25Fn : List (List (List Nat)) → List (List Nat) → List ℚ)
    (embedQ : Except String (List ℚ))
    (chunks : List Chunk) (query : List Nat) (top_k : Nat) :
    Except String (List Nat) :=
  match hybrid_search cos bm25Fn embedQ chunks query top_k with
  | .error e => .error e
  | .ok results =>
    if results.isEmpty then .ok []
    else
      .ok (List.intercalate (strToCp "\n\n---\n\n")
        (results.map (fun p =>
          strToCp "[Relevance: " ++ fmt p.2 ++ strToCp "]\n" ++ p.1.text)))

/-! ## Change detection (RAGService.check_notion_changed, rag.py 148-174)

`hashFn` models `hashlib.sha256(content.encode()).hexdigest()` of the
external hashlib module.  The table of `NotionPageState` rows is a list;
`find?` is the filtered `first()` query. -/

structure NotionPageState where
  page_id : String
  last_edited_time : String
  content_hash : String
deriving DecidableEq

def check_notion_changed (hashFn : String → String)
    (db : List NotionPageState)
    (page_id current_content last_edited_time : String) :
    Bool × List NotionPageState :=
  let current_hash := hashFn current_content
  match db.find? (fun st => st.page_id == page_id) with
  | none =>
    (true, db ++ [{ page_id := page_id, last_edited_time := last_edited_time,
                    content_hash := current_hash }])
  | some st =>
    if st.content_hash ≠ current_hash ∨ st.last_edited_time ≠ last_edited_time then
      (true, db.map (fun s =>
        if s.page_id == page_id then
          { s with last_edited_time := last_edited_time, content_hash := current_hash }
        else s))
    else
      (false, db)

/-! ## Indexing orchestration (RAGService.index_notion_page, rag.py 66-90)

The session is a committed chunk list plus the pending (uncommitted) view;
`delete` and `add` act on the pending view and `commit` publishes it.  The
tokenizer pair `encode`/`decode` and the embedding provider `embed` are
external parameters, as is `newIds`, the autoincrement primary key
assignment of the database. -/

structure DbState where
  committed : List Chunk
  pending : List Chunk
deriving DecidableEq

def commitDb (s : DbState) : DbState :=
  { committed := s.pending, pending := s.pending }

/-- The indexing loop body: embed every chunk text in order and build the
`Chunk` rows; the first embedding failure aborts the whole loop. -/
def buildChunks (embed : List Nat → Except String (List ℚ))
    (encode : List Nat → List Nat) (decode : List Nat → List Nat)
    (newIds : Nat → Nat) (pid : Nat) :
    List (List Nat) → Nat → Except String (List Chunk)
  | [], _ => .ok []
  | t :: ts, i =>
    match embed (decode t) with
    | .error e => .error e
    | .ok emb =>
      match buildChunks embed encode decode newIds pid ts (i + 1) with
      | .error e => .error e
      | .ok rest =>
        .ok ({ id := newIds i, notion_page_id := pid, chunk_index := i,
               text := decode t, embedding := some emb,
               keywords := extract_keywords (decode t),
               token_count := (encode (decode t)).length } :: rest)

/-- `RAGService.index_notion_page`: delete the existing chunks of the page
(uncommitted), chunk the content, embed and add every chunk, then commit
once; an embedding failure propagates before any commit. -/
def index_notion_page (embed : List Nat → Except String (List ℚ))
    (encode : List Nat → List Nat) (decode : List Nat → List Nat)
    (newIds : Nat → Nat) (s : DbState) (pid : Nat) (content : List Nat) :
    DbState × Except String Nat :=
  let s1 : DbState :=
    { s with pending := s.pending.filter (fun c => c.notion_page_id != pid) }
  let chunks := chunk_text (encode content)
  match buildChunks embed encode decode newIds pid chunks 0 with
  | .error e => (s1, .error e)
  | .ok newChunks =>
    (commitDb { s1 with pending := s1.pending ++ newChunks }, .ok chunks.length)

end RagCore

namespace RagCore

/-! ## Chunker lemmas -/

theorem chunkFuel_stop (cs ov : Nat) (tokens : List Nat) (fuel start : Nat)
    (h : tokens.length ≤ start) :
    chunkTextFuel cs ov tokens (fuel + 1) start = some [] := by
  simp [chunkTextFuel, Nat.not_lt.mpr h]

theorem chunkFuel_total (cs ov : Nat) (h : ov < cs) (tokens : List Nat) :
    ∀ fuel start, tokens.length - start < fuel →
      ∃ out, chunkTextFuel cs ov tokens fuel start = some out := by
  intro fuel
  induction fuel with
  | zero => intro start hs; omega
  | succ f ih =>
    intro start hs
    by_cases hlt : start < tokens.length
    · obtain ⟨out, hout⟩ := ih (start + cs - ov) (by omega)
      exact ⟨((tokens.drop start).take cs) :: out, by simp [chunkTextFuel, hlt, hout]⟩
    · exact ⟨[], by simp [chunkTextFuel, hlt]⟩

theorem chunkFuel_length (tokens : List Nat) :
    ∀ fuel start, tokens.length - start < fuel →
      ∃ out, chunkTextFuel 500 50 tokens fuel start = some out ∧
        out.length = (tokens.length - start + 449) / 450 := by
  intro fuel
  induction fuel with
  | zero => intro start hs; omega
  | succ f ih =>
    intro start hs
    by_cases hlt : start < tokens.length
    · have hrec : tokens.length - (start + 500 - 50) < f := by omega
      obtain ⟨out, hout, hlen⟩ := ih (start + 500 - 50) hrec
      refine ⟨((tokens.drop start).take 500) :: out,
        by simp [chunkTextFuel, hlt]; rw [show start + 450 = start + 500 - 50 by omega, hout],
        ?_⟩
      have h1 : tokens.length - (start + 500 - 50) = tokens.length - start - 450 := by omega
      simp only [List.length_cons, hlen, h1]
      omega
    · refine ⟨[], by simp [chunkTextFuel, hlt], ?_⟩
      have : tokens.length - start = 0 := by omega
      simp [this]

theorem chunk_text_length (tokens : List Nat) (_h : tokens ≠ []) :
    (chunk_text tokens).length = (tokens.length + 449) / 450 := by
  obtain ⟨out, hout, hlen⟩ := chunkFuel_length tokens (tokens.length + 1) 0 (by omega)
  simp [chunk_text, hout, hlen]

theorem chunk_text_small (tokens : List Nat) (h0 : tokens ≠ [])
    (h1 : tokens.length ≤ 450) :
    chunk_text tokens = [tokens] := by
  have hpos : 0 < tokens.length := List.length_pos.mpr h0
  have hstep : chunkTextFuel 500 50 tokens tokens.length (0 + 500 - 50) = some [] := by
    obtain ⟨n, hn⟩ : ∃ n, tokens.length = n + 1 := ⟨tokens.length - 1, by omega⟩
    rw [hn]
    exact chunkFuel_stop 500 50 tokens n (0 + 500 - 50) (by omega)
  have : chunkTextFuel 500 50 tokens (tokens.length + 1) 0 =
      some [(tokens.drop 0).take 500] := by
    rw [show tokens.length + 1 = tokens.length + 1 from rfl]
    simp [chunkTextFuel, hpos, hstep]
  simp [chunk_text, this, List.take_of_length_le (by omega : tokens.length ≤ 500)]

/-- C1 (corrected).  The chunker produces no chunk for an empty token
sequence; for a non-empty sequence of `N` tokens with the configured
`chunk_size = 500` and `overlap = 50` it produces exactly
`ceil(N / 450) = (N + 449) / 450` chunks, one per window start
`0, 450, 900, ...` below `N`; and a non-empty text of at most `450`
tokens yields exactly one chunk equal to the whole input. -/
theorem chunk_text_count (tokens : List Nat) :
    (tokens = [] → chunk_text tokens = []) ∧
    (tokens ≠ [] → (chunk_text tokens).length = (tokens.length + 449) / 450) ∧
    (tokens ≠ [] → tokens.length ≤ 450 → chunk_text tokens = [tokens]) := by
  refine ⟨?_, chunk_text_length tokens, chunk_text_small tokens⟩
  rintro rfl
  rfl

/-- Witness for C1: a concrete three-token text gives one chunk equal to
the whole input. -/
theorem chunk_text_count_witness :
    ([0, 1, 2] : List Nat) ≠ [] ∧ ([0, 1, 2] : List Nat).length ≤ 450 ∧
      chunk_text [0, 1, 2] = [[0, 1, 2]] :=
  ⟨by decide, by decide, (chunk_text_count [0, 1, 2]).2.2 (by decide) (by decide)⟩

/-- Counterexample for C1 as stated: a text of 451 tokens produces 2
chunks (window starts 0 and 450), while the claimed formula
`max(1, ceil((N - 50) / 450))` gives 1. -/
theorem chunk_text_count_counterexample :
    (chunk_text (List.range 451)).length = 2 ∧
      max 1 ((451 - 50 + 449) / 450) = 1 := by
  constructor
  · rw [chunk_text_length (List.range 451) (by simp [List.range_eq_nil])]
    simp
  · decide

/-- C10 (confirmed).  Under the precondition `overlap < chunk_size` the
chunking loop terminates on every input: every iteration advances the
start offset by `chunk_size - overlap ≥ 1`, so `tokens.length + 1`
iterations always suffice and the fuel-indexed loop returns a value. -/
theorem chunk_text_terminates (cs ov : Nat) (h : ov < cs) (tokens : List Nat) :
    ∃ out, chunkTextFuel cs ov tokens (tokens.length + 1) 0 = some out :=
  chunkFuel_total cs ov h tokens (tokens.length + 1) 0 (by omega)

/-- Witness for C10 at the configured parameters 500/50 on a concrete
text. -/
theorem chunk_text_terminates_witness :
    50 < 500 ∧
      ∃ out, chunkTextFuel 500 50 [3, 4, 5] (([3, 4, 5] : List Nat).length + 1) 0
        = some out :=
  ⟨by decide, chunk_text_terminates 500 50 (by decide) [3, 4, 5]⟩

/-! ## Cosine similarity: the zero-norm case -/

/-- C2 (code bug).  `cosine_similarity` divides by the product of the two
norms with no guard: on a zero-norm input the denominator is zero and the
float quotient is not finite (`none` in the model); the sentinel `some 0`
that the spec requires is not returned. -/
theorem cosine_similarity_zero_norm :
    cosine_similarity [(0 : ℝ)] [(1 : ℝ)] = none ∧
      (none : Option ℝ) ≠ some (0 : ℝ) := by
  constructor
  · simp [cosine_similarity, pyNorm, dotList]
  · simp

/-! ## Hybrid search on an empty store -/

/-- C6 (confirmed).  On an empty chunk store `hybrid_search` returns the
empty list for every query and every `top_k`, whatever the embedding
provider would do (even a failing provider, since it is never consulted),
and `get_context_for_query` returns the empty string. -/
theorem hybrid_search_empty_store (fmt : ℚ → List Nat)
    (cos : List ℚ → List ℚ → ℚ)
    (bm25Fn : List (List (List Nat)) → List (List Nat) → List ℚ)
    (embedQ : Except String (List ℚ)) (query : List Nat) (top_k : Nat) :
    hybrid_search cos bm25Fn embedQ [] query top_k = .ok [] ∧
      get_context_for_query fmt cos bm25Fn embedQ [] query top_k = .ok [] :=
  ⟨rfl, rfl⟩

end RagCore

namespace RagCore

/-! ## Change detection lemmas -/

theorem map_self_of_mem {α : Type} (f : α → α) (l : List α)
    (h : ∀ x ∈ l, f x = x) : l.map f = l := by
  induction l with
  | nil => rfl
  | cons a t ih =>
    simp only [List.map_cons, h a (by simp)]
    rw [ih (fun x hx => h x (by simp [hx]))]

/-- C4 (confirmed).  For a document id with no stored state,
`check_notion_changed` returns `true` and creates the state row holding
the hash of the content and the given marker; calling again with the same
content and marker returns `false` with the table unchanged; calling with
content hashing differently or a different marker returns `true` and both
stored fields become the current hash and marker.  `hashFn` models the
external SHA-256 hex digest. -/
theorem check_notion_changed_spec (hashFn : String → String)
    (db : List NotionPageState) (pid c m : String)
    (hnew : db.find? (fun st => st.page_id == pid) = none) :
    (check_notion_changed hashFn db pid c m).1 = true ∧
    ((check_notion_changed hashFn db pid c m).2).find? (fun st => st.page_id == pid)
      = some { page_id := pid, last_edited_time := m, content_hash := hashFn c } ∧
    check_notion_changed hashFn (check_notion_changed hashFn db pid c m).2 pid c m
      = (false, (check_notion_changed hashFn db pid c m).2) ∧
    (∀ c2 m2, hashFn c2 ≠ hashFn c ∨ m2 ≠ m →
      (check_notion_changed hashFn (check_notion_changed hashFn db pid c m).2 pid c2 m2).1
          = true ∧
      ((check_notion_changed hashFn (check_notion_changed hashFn db pid c m).2 pid c2 m2).2).find?
          (fun st => st.page_id == pid)
        = some { page_id := pid, last_edited_time := m2, content_hash := hashFn c2 }) := by
  have hall : ∀ s ∈ db, (s.page_id == pid) = false := by
    intro s hs
    have := List.find?_eq_none.mp hnew s hs
    simpa using this
  have hstep1 : check_notion_changed hashFn db pid c m =
      (true, db ++ [⟨pid, m, hashFn c⟩]) := by
    simp [check_notion_changed, hnew]
  have hfind1 : (db ++ [(⟨pid, m, hashFn c⟩ : NotionPageState)]).find?
      (fun st => st.page_id == pid) = some ⟨pid, m, hashFn c⟩ := by
    rw [List.find?_append, hnew]
    simp [List.find?]
  refine ⟨by rw [hstep1], by rw [hstep1]; exact hfind1, ?_, ?_⟩
  · rw [hstep1]
    simp only [check_notion_changed, hfind1]
    simp
  · intro c2 m2 hdiff
    rw [hstep1]
    simp only [check_notion_changed, hfind1]
    have hcond : ((⟨pid, m, hashFn c⟩ : NotionPageState).content_hash ≠ hashFn c2 ∨
        (⟨pid, m, hashFn c⟩ : NotionPageState).last_edited_time ≠ m2) := by
      rcases hdiff with h | h
      · exact Or.inl (by simpa using fun he => h he.symm)
      · exact Or.inr (by simpa using fun he => h he.symm)
    rw [if_pos hcond]
    constructor
    · rfl
    · rw [List.map_append, List.find?_append]
      have hmap : db.map (fun s =>
          if s.page_id == pid then
            { s with last_edited_time := m2, content_hash := hashFn c2 } else s) = db :=
        map_self_of_mem _ db (fun s hs => by simp [hall s hs])
      rw [hmap, hnew]
      simp [List.find?]

/-- Witness for C4: first sighting of page id p, then an unchanged call,
then a call with different content. -/
theorem check_notion_changed_witness :
    (([] : List NotionPageState).find? (fun st => st.page_id == "p") = none) ∧
    (check_notion_changed id [] "p" "x" "t1").1 = true ∧
    check_notion_changed id (check_notion_changed id [] "p" "x" "t1").2 "p" "x" "t1"
      = (false, (check_notion_changed id [] "p" "x" "t1").2) ∧
    (check_notion_changed id (check_notion_changed id [] "p" "x" "t1").2 "p" "y" "t2").1
      = true := by
  have h := check_notion_changed_spec id [] "p" "x" "t1" rfl
  exact ⟨rfl, h.1, h.2.2.1, (h.2.2.2 "y" "t2" (Or.inl (by decide))).1⟩

end RagCore

namespace RagCore

/-! ## Keyword extraction: the character rule -/

theorem subNonWord_eq_amended (l : List Nat) : subNonWord l = subNonWordAmended l := by
  have hfun : ∀ n : Nat, (if isWordCp n || isSpaceCp n then n else 32)
      = (if !((48 ≤ n && n ≤ 57) || (65 ≤ n && n ≤ 90) || (97 ≤ n && n ≤ 122)
          || n == 95 || isSpaceCp n) then 32 else n) := by
    intro n
    have hiff : (isWordCp n || isSpaceCp n)
        = ((48 ≤ n && n ≤ 57) || (65 ≤ n && n ≤ 90) || (97 ≤ n && n ≤ 122)
            || n == 95 || isSpaceCp n) := by
      simp [isWordCp, Bool.or_assoc]
    rw [hiff]
    cases hb : ((48 ≤ n && n ≤ 57) || (65 ≤ n && n ≤ 90) || (97 ≤ n && n ≤ 122)
        || n == 95 || isSpaceCp n) <;> simp
  simp only [subNonWord, subNonWordAmended]
  exact List.map_congr_left (fun n _ => hfun n)

/-- C7 (corrected).  `extract_keywords` lowercases, replaces every
character that is not alphanumeric, not an underscore and not whitespace
by a space (the regex class `\w` keeps the underscore), splits on
whitespace, drops tokens of length at most 2 and stop-word tokens, and
joins the survivors with single spaces in order with duplicates; the spec
example holds. -/
theorem extract_keywords_spec :
    (∀ t, extract_keywords t = extract_keywords_amended t) ∧
    extract_keywords (strToCp "The Cat sat on THE mat.") = strToCp "cat sat mat" := by
  constructor
  · intro t
    simp only [extract_keywords, extract_keywords_amended, subNonWord_eq_amended]
  · decide

/-- Counterexample for C7 as stated: on `"foo_bar"` the code keeps the
underscore (the replaced class is `[^\w\s]`), while the claimed rule
(replace everything that is not alphanumeric or whitespace) would split
the token in two. -/
theorem extract_keywords_claim_counterexample :
    extract_keywords (strToCp "foo_bar") = strToCp "foo_bar" ∧
    extract_keywords_claim (strToCp "foo_bar") = strToCp "foo bar" ∧
    extract_keywords (strToCp "foo_bar") ≠ extract_keywords_claim (strToCp "foo_bar") := by
  exact ⟨by decide, by decide, by decide⟩

end RagCore

namespace RagCore

/-! ## Keyword extraction: idempotence -/

theorem pyLowerCp_idem (n : Nat) : pyLowerCp (pyLowerCp n) = pyLowerCp n := by
  simp only [pyLowerCp]
  split_ifs <;> omega

theorem splitAux_chars : ∀ (l acc : List Nat), (∀ c ∈ acc, isSpaceCp c = false) →
    ∀ w ∈ splitAux l acc, ∀ c ∈ w, (c ∈ l ∨ c ∈ acc) ∧ isSpaceCp c = false := by
  intro l
  induction l with
  | nil =>
    intro acc hacc w hw c hc
    simp only [splitAux] at hw
    by_cases ha : acc.isEmpty
    · simp [ha] at hw
    · simp [ha] at hw
      subst hw
      exact ⟨Or.inr hc, hacc c hc⟩
  | cons a t ih =>
    intro acc hacc w hw c hc
    simp only [splitAux] at hw
    by_cases hs : isSpaceCp a = true
    · rw [if_pos hs] at hw
      by_cases ha : acc.isEmpty
      · rw [if_pos ha] at hw
        obtain ⟨hmem, hns⟩ := ih [] (by simp) w hw c hc
        rcases hmem with h | h
        · exact ⟨Or.inl (List.mem_cons_of_mem a h), hns⟩
        · simp at h
      · rw [if_neg ha] at hw
        rcases List.mem_cons.mp hw with rfl | hw2
        · exact ⟨Or.inr hc, hacc c hc⟩
        · obtain ⟨hmem, hns⟩ := ih [] (by simp) w hw2 c hc
          rcases hmem with h | h
          · exact ⟨Or.inl (List.mem_cons_of_mem a h), hns⟩
          · simp at h
    · rw [if_neg hs] at hw
      have hacc2 : ∀ c2 ∈ acc ++ [a], isSpaceCp c2 = false := by
        intro c2 hc2
        rcases List.mem_append.mp hc2 with h | h
        · exact hacc c2 h
        · simp at h
          subst h
          simpa using hs
      obtain ⟨hmem, hns⟩ := ih (acc ++ [a]) hacc2 w hw c hc
      refine ⟨?_, hns⟩
      rcases hmem with h | h
      · exact Or.inl (List.mem_cons_of_mem a h)
      · rcases List.mem_append.mp h with h2 | h2
        · exact Or.inr h2
        · simp at h2
          subst h2
          exact Or.inl (List.mem_cons_self c t)

theorem subNonWord_mem (t : List Nat) (c : Nat)
    (hc : c ∈ subNonWord (t.map pyLowerCp)) (hns : isSpaceCp c = false) :
    isWordCp c = true ∧ pyLowerCp c = c := by
  simp only [subNonWord, List.mem_map] at hc
  obtain ⟨n, hn, hceq⟩ := hc
  obtain ⟨m0, _hm0, rfl⟩ := hn
  by_cases h : (isWordCp (pyLowerCp m0) || isSpaceCp (pyLowerCp m0)) = true
  · rw [if_pos h] at hceq
    subst hceq
    rcases Bool.or_eq_true_iff.mp h with hw | hsp
    · exact ⟨hw, pyLowerCp_idem m0⟩
    · rw [hsp] at hns
      cases hns
  · rw [if_neg h] at hceq
    subst hceq
    have : isSpaceCp 32 = true := by decide
    rw [this] at hns
    cases hns

theorem mem_joinWords : ∀ (ws : List (List Nat)) (c : Nat), c ∈ joinWords ws →
    c = 32 ∨ ∃ w, w ∈ ws ∧ c ∈ w := by
  intro ws
  induction ws with
  | nil =>
    intro c hc
    simp [joinWords] at hc
  | cons w ws ih =>
    intro c hc
    cases ws with
    | nil =>
      simp only [joinWords] at hc
      exact Or.inr ⟨w, by simp, hc⟩
    | cons w2 ws2 =>
      simp only [joinWords] at hc
      rcases List.mem_append.mp hc with h | h
      · exact Or.inr ⟨w, by simp, h⟩
      · rcases List.mem_cons.mp h with rfl | h2
        · exact Or.inl rfl
        · rcases ih c h2 with h3 | ⟨w3, hw3, hcw3⟩
          · exact Or.inl h3
          · exact Or.inr ⟨w3, List.mem_cons_of_mem w hw3, hcw3⟩

theorem splitAux_append_word : ∀ (w l acc : List Nat),
    (∀ c ∈ w, isSpaceCp c = false) →
    splitAux (w ++ l) acc = splitAux l (acc ++ w) := by
  intro w
  induction w with
  | nil =>
    intro l acc _h
    simp
  | cons a w2 ih =>
    intro l acc h
    have ha : isSpaceCp a = false := h a (by simp)
    simp only [List.cons_append, splitAux, ha, Bool.false_eq_true, if_false]
    show splitAux (w2 ++ l) (acc ++ [a]) = splitAux l (acc ++ a :: w2)
    rw [ih l (acc ++ [a]) (fun c hc => h c (by simp [hc]))]
    congr 1
    simp

theorem pySplit_joinWords : ∀ ws : List (List Nat),
    (∀ w ∈ ws, w ≠ [] ∧ ∀ c ∈ w, isSpaceCp c = false) →
    pySplit (joinWords ws) = ws := by
  intro ws
  induction ws with
  | nil =>
    intro _h
    rfl
  | cons w ws ih =>
    intro h
    have hw := h w (by simp)
    cases ws with
    | nil =>
      simp only [joinWords, pySplit]
      have h2 : splitAux (w ++ []) [] = splitAux [] ([] ++ w) :=
        splitAux_append_word w [] [] hw.2
      simp only [List.append_nil, List.nil_append] at h2
      rw [h2]
      cases w with
      | nil => exact absurd rfl hw.1
      | cons c cs => simp [splitAux]
    | cons w2 ws2 =>
      simp only [joinWords, pySplit]
      have h2 : splitAux (w ++ 32 :: joinWords (w2 :: ws2)) []
          = splitAux (32 :: joinWords (w2 :: ws2)) ([] ++ w) :=
        splitAux_append_word w _ [] hw.2
      rw [h2]
      simp only [List.nil_append]
      have hwne : w.isEmpty = false := by
        cases w with
        | nil => exact absurd rfl hw.1
        | cons c cs => rfl
      have hs32 : isSpaceCp 32 = true := by decide
      simp only [splitAux, hs32, hwne, if_true, Bool.false_eq_true, if_false]
      have h3 : splitAux (joinWords (w2 :: ws2)) [] = w2 :: ws2 :=
        ih (fun w3 hw3 => h w3 (List.mem_cons_of_mem w hw3))
      rw [h3]

/-- C9 (confirmed).  `extract_keywords` is idempotent: its output is a
space-joined list of words made only of lowered word characters, each
longer than 2 and not a stop word, and the pipeline leaves such a string
unchanged. -/
theorem extract_keywords_idem (t : List Nat) :
    extract_keywords (extract_keywords t) = extract_keywords t := by
  have hgood : ∀ w ∈ (pySplit (subNonWord (t.map pyLowerCp))).filter keepWord,
      w ≠ [] ∧ keepWord w = true ∧
      ∀ c ∈ w, isWordCp c = true ∧ isSpaceCp c = false ∧ pyLowerCp c = c := by
    intro w hw
    have hmem := (List.mem_filter.mp hw).1
    have hkeep := (List.mem_filter.mp hw).2
    have hlen : 2 < w.length := by
      have h2 := hkeep
      simp only [keepWord, Bool.and_eq_true, decide_eq_true_eq] at h2
      exact h2.1
    refine ⟨?_, hkeep, ?_⟩
    · intro hnil
      subst hnil
      simp at hlen
    · intro c hc
      obtain ⟨hin, hns⟩ :=
        splitAux_chars (subNonWord (t.map pyLowerCp)) [] (by simp) w hmem c hc
      have hcin : c ∈ subNonWord (t.map pyLowerCp) := by
        rcases hin with h | h
        · exact h
        · simp at h
      obtain ⟨hword, hfix⟩ := subNonWord_mem t c hcin hns
      exact ⟨hword, hns, hfix⟩
  set ws := (pySplit (subNonWord (t.map pyLowerCp))).filter keepWord with hws
  show extract_keywords (joinWords ws) = joinWords ws
  have hchar : ∀ c ∈ joinWords ws,
      c = 32 ∨ (isWordCp c = true ∧ isSpaceCp c = false ∧ pyLowerCp c = c) := by
    intro c hc
    rcases mem_joinWords ws c hc with h | ⟨w, hw, hcw⟩
    · exact Or.inl h
    · exact Or.inr ((hgood w hw).2.2 c hcw)
  have hlower : (joinWords ws).map pyLowerCp = joinWords ws := by
    apply map_self_of_mem
    intro c hc
    rcases hchar c hc with rfl | h
    · decide
    · exact h.2.2
  have hsub : subNonWord (joinWords ws) = joinWords ws := by
    simp only [subNonWord]
    apply map_self_of_mem
    intro c hc
    rcases hchar c hc with rfl | h
    · decide
    · simp [h.1]
  show joinWords ((pySplit (subNonWord ((joinWords ws).map pyLowerCp))).filter keepWord)
      = joinWords ws
  rw [hlower, hsub]
  rw [pySplit_joinWords ws
    (fun w hw => ⟨(hgood w hw).1, fun c hc => ((hgood w hw).2.2 c hc).2.1⟩)]
  rw [List.filter_eq_self.mpr (fun w hw => (hgood w hw).2.1)]

end RagCore

namespace RagCore

/-! ## Hybrid search: score bounds, ordering and stability -/

theorem le_foldl_max (xs : List ℚ) : ∀ a : ℚ, a ≤ xs.foldl max a := by
  induction xs with
  | nil => intro a; exact le_refl a
  | cons y ys ih => intro a; exact le_trans (le_max_left a y) (ih (max a y))

theorem mem_le_foldl_max (xs : List ℚ) : ∀ (a x : ℚ), x ∈ xs → x ≤ xs.foldl max a := by
  induction xs with
  | nil => intro a x hx; simp at hx
  | cons y ys ih =>
    intro a x hx
    rcases List.mem_cons.mp hx with rfl | h
    · exact le_trans (le_max_right a x) (le_foldl_max ys (max a x))
    · exact ih (max a y) x h

theorem le_maxQ (l : List ℚ) (x : ℚ) (hx : x ∈ l) : x ≤ maxQ l := by
  cases l with
  | nil => simp at hx
  | cons y ys =>
    rcases List.mem_cons.mp hx with rfl | h
    · exact le_foldl_max ys x
    · exact mem_le_foldl_max ys y x h

theorem lookupVector_cases (vscores : List (Chunk × ℚ)) (c : Chunk) :
    lookupVector vscores c = 0 ∨ ∃ p ∈ vscores, lookupVector vscores c = p.2 := by
  unfold lookupVector
  cases hf : vscores.find? (fun p => p.1.id == c.id) with
  | none => exact Or.inl rfl
  | some p => exact Or.inr ⟨p, List.mem_of_find?_eq_some hf, rfl⟩

theorem getD_zero_or_mem (l : List ℚ) (i : Nat) :
    l.getD i 0 = 0 ∨ l.getD i 0 ∈ l := by
  by_cases h : i < l.length
  · right
    rw [List.getD_eq_getElem l 0 h]
    exact List.getElem_mem h
  · left
    exact List.getD_eq_default l 0 (le_of_not_lt h)

theorem fusedScore_le_one (vscores : List (Chunk × ℚ)) (bm25_scores : List ℚ)
    (i : Nat) (c : Chunk) : fusedScore vscores bm25_scores i c ≤ 1 := by
  have hnv : (if maxVector vscores > 0 then
      lookupVector vscores c / maxVector vscores else 0) ≤ 1 := by
    by_cases hM : maxVector vscores > 0
    · rw [if_pos hM, div_le_one hM]
      rcases lookupVector_cases vscores c with h | ⟨p, hp, h⟩
      · rw [h]; exact le_of_lt hM
      · rw [h]
        have hpin : p.2 ∈ vscores.map (fun q => q.2) := List.mem_map_of_mem _ hp
        have hne : vscores.length > 0 := by
          cases vscores with
          | nil => simp at hp
          | cons q qs => simp
        calc p.2 ≤ maxQ (vscores.map (fun q => q.2)) := le_maxQ _ _ hpin
          _ = maxVector vscores := by rw [maxVector, if_pos hne]
    · rw [if_neg hM]; norm_num
  have hnb : (if maxBm25 bm25_scores > 0 then
      bm25_scores.getD i 0 / maxBm25 bm25_scores else 0) ≤ 1 := by
    by_cases hN : maxBm25 bm25_scores > 0
    · rw [if_pos hN, div_le_one hN]
      by_cases hcond : bm25_scores.length > 0 ∧ maxQ bm25_scores > 0
      · rw [maxBm25, if_pos hcond]
        rcases getD_zero_or_mem bm25_scores i with h | h
        · rw [h]; exact le_of_lt hcond.2
        · exact le_maxQ _ _ h
      · rw [maxBm25, if_neg hcond]
        rcases getD_zero_or_mem bm25_scores i with h | h
        · rw [h]; norm_num
        · have hlen : bm25_scores.length > 0 := by
            cases bm25_scores with
            | nil => simp at h
            | cons s ss => simp
          have hmax : ¬ (maxQ bm25_scores > 0) := fun hx => hcond ⟨hlen, hx⟩
          calc bm25_scores.getD i 0 ≤ maxQ bm25_scores := le_maxQ _ _ h
            _ ≤ 0 := le_of_not_lt hmax
            _ ≤ 1 := by norm_num
    · rw [if_neg hN]; norm_num
  rw [fusedScore]
  linarith [hnv, hnb]

theorem fusedScore_nonneg (vscores : List (Chunk × ℚ)) (bm25_scores : List ℚ)
    (i : Nat) (c : Chunk)
    (hv : ∀ p ∈ vscores, 0 ≤ p.2) (hb : ∀ s ∈ bm25_scores, 0 ≤ s) :
    0 ≤ fusedScore vscores bm25_scores i c := by
  have hnv : 0 ≤ (if maxVector vscores > 0 then
      lookupVector vscores c / maxVector vscores else 0) := by
    by_cases hM : maxVector vscores > 0
    · rw [if_pos hM]
      apply div_nonneg _ (le_of_lt hM)
      rcases lookupVector_cases vscores c with h | ⟨p, hp, h⟩
      · rw [h]
      · rw [h]; exact hv p hp
    · rw [if_neg hM]
  have hnb : 0 ≤ (if maxBm25 bm25_scores > 0 then
      bm25_scores.getD i 0 / maxBm25 bm25_scores else 0) := by
    by_cases hN : maxBm25 bm25_scores > 0
    · rw [if_pos hN]
      apply div_nonneg _ (le_of_lt hN)
      rcases getD_zero_or_mem bm25_scores i with h | h
      · rw [h]
      · exact hb _ h
    · rw [if_neg hN]
  rw [fusedScore]
  linarith [hnv, hnb]

theorem vectorScores_nonneg (cos : List ℚ → List ℚ → ℚ) (qe : List ℚ)
    (chunks : List Chunk)
    (hc : ∀ c ∈ chunks, 0 ≤ cos qe (c.embedding.getD [])) :
    ∀ p ∈ vectorScores cos qe chunks, 0 ≤ p.2 := by
  intro p hp
  simp only [vectorScores, List.mem_map] at hp
  obtain ⟨c, hcf, rfl⟩ := hp
  exact hc c (List.mem_of_mem_filter hcf)

theorem combinedScores_mem (cos : List ℚ → List ℚ → ℚ) (qe : List ℚ)
    (bm25_scores : List ℚ) (chunks : List Chunk) (p : Chunk × ℚ)
    (hp : p ∈ combinedScores cos qe bm25_scores chunks) :
    p.1 ∈ chunks ∧
    (∃ i, p = (p.1, fusedScore (vectorScores cos qe chunks) bm25_scores i p.1)) := by
  simp only [combinedScores, List.mem_map] at hp
  obtain ⟨ic, hic, rfl⟩ := hp
  constructor
  · obtain ⟨i, c⟩ := ic
    have h := List.mk_mem_enum_iff_getElem?.mp hic
    exact List.getElem?_mem h
  · exact ⟨ic.1, rfl⟩

/-- On the `.ok` path the search result is always the first `top_k`
entries of the stable descending sort of the fused score list. -/
theorem hybrid_search_ok_eq (cos : List ℚ → List ℚ → ℚ)
    (bm25Fn : List (List (List Nat)) → List (List Nat) → List ℚ)
    (qe : List ℚ) (chunks : List Chunk) (query : List Nat) (top_k : Nat)
    (res : List (Chunk × ℚ))
    (hres : hybrid_search cos bm25Fn (.ok qe) chunks query top_k = .ok res) :
    res = (sortByScore (combinedScores cos qe
      (bm25Fn (bm25Corpus chunks) (pySplit (extract_keywords query))) chunks)).take top_k := by
  by_cases hemp : chunks.isEmpty
  · have hnil : chunks = [] := List.isEmpty_iff.mp hemp
    subst hnil
    simp only [hybrid_search, List.isEmpty_nil, if_true, Except.ok.injEq] at hres
    subst hres
    simp [sortByScore, combinedScores, List.insertionSort]
  · simp [hybrid_search, hemp] at hres
    exact hres.symm

instance scoreRelIsTotal : IsTotal (Chunk × ℚ) (fun a b => b.2 ≤ a.2) :=
  ⟨fun a b => le_total b.2 a.2⟩

instance scoreRelIsTrans : IsTrans (Chunk × ℚ) (fun a b => b.2 ≤ a.2) :=
  ⟨fun _ _ _ h1 h2 => le_trans h2 h1⟩

end RagCore

namespace RagCore

/-- C3 (corrected).  Every returned pair of `hybrid_search` carries the
fused score `0.7 * normalized_dense + 0.3 * normalized_lexical` of its
chunk (a chunk with no dense score contributes 0 to the dense term); the
dense signal is normalized by its positive maximum and zeroed otherwise,
but the lexical signal falls back to a divisor of 1 when its maximum is
not positive, so raw lexical scores pass through there; every fused score
of a returned result is at most 1, and lies in `[0, 1]` whenever all raw
scores of both signals are nonnegative. -/
theorem hybrid_search_fused_bounds (cos : List ℚ → List ℚ → ℚ)
    (bm25Fn : List (List (List Nat)) → List (List Nat) → List ℚ)
    (qe : List ℚ) (chunks : List Chunk) (query : List Nat) (top_k : Nat)
    (res : List (Chunk × ℚ)) (p : Chunk × ℚ)
    (hres : hybrid_search cos bm25Fn (.ok qe) chunks query top_k = .ok res)
    (hp : p ∈ res) :
    p ∈ combinedScores cos qe
        (bm25Fn (bm25Corpus chunks) (pySplit (extract_keywords query))) chunks ∧
    p.2 ≤ 1 ∧
    ((∀ s ∈ bm25Fn (bm25Corpus chunks) (pySplit (extract_keywords query)), 0 ≤ s) →
      (∀ c ∈ chunks, 0 ≤ cos qe (c.embedding.getD [])) →
      0 ≤ p.2 ∧ p.2 ≤ 1) := by
  have heq := hybrid_search_ok_eq cos bm25Fn qe chunks query top_k res hres
  rw [heq] at hp
  have hp2 : p ∈ sortByScore (combinedScores cos qe
      (bm25Fn (bm25Corpus chunks) (pySplit (extract_keywords query))) chunks) :=
    List.take_subset _ _ hp
  rw [sortByScore] at hp2
  have hp3 := (List.mem_insertionSort _).mp hp2
  obtain ⟨_hc1, i, hpi⟩ := combinedScores_mem _ _ _ _ p hp3
  have hp4 : p.2 = fusedScore (vectorScores cos qe chunks)
      (bm25Fn (bm25Corpus chunks) (pySplit (extract_keywords query))) i p.1 := by
    rw [hpi]
  refine ⟨hp3, ?_, ?_⟩
  · rw [hp4]
    exact fusedScore_le_one _ _ _ _
  · intro hb hc
    refine ⟨?_, by rw [hp4]; exact fusedScore_le_one _ _ _ _⟩
    rw [hp4]
    exact fusedScore_nonneg _ _ _ _ (vectorScores_nonneg cos qe chunks hc) hb

/-- Witness for C3: one chunk with an embedding, dense score 1, lexical
score 2; the returned fused score is 1 and lies in `[0, 1]`. -/
theorem hybrid_search_fused_bounds_witness :
    0 ≤ (((⟨1, 0, 0, [], some [1], [], 0⟩ : Chunk), (1 : ℚ))).2 ∧
    (((⟨1, 0, 0, [], some [1], [], 0⟩ : Chunk), (1 : ℚ))).2 ≤ 1 := by
  have hev : hybrid_search (fun _ _ => (1 : ℚ)) (fun _ _ => [(2 : ℚ)]) (.ok [])
      [⟨1, 0, 0, [], some [1], [], 0⟩] [] 3
      = .ok [(⟨1, 0, 0, [], some [1], [], 0⟩, 1)] := by
    simp [hybrid_search, sortByScore, combinedScores, fusedScore, maxVector, maxBm25,
      vectorScores, bm25Corpus, lookupVector, maxQ, embTruthy, extract_keywords, pySplit,
      splitAux, subNonWord, joinWords, keepWord, List.insertionSort, List.orderedInsert,
      List.enum, List.enumFrom]
    norm_num
  exact (hybrid_search_fused_bounds (fun _ _ => (1 : ℚ)) (fun _ _ => [(2 : ℚ)]) []
      [⟨1, 0, 0, [], some [1], [], 0⟩] [] 3 [(⟨1, 0, 0, [], some [1], [], 0⟩, 1)]
      (⟨1, 0, 0, [], some [1], [], 0⟩, 1) hev (by simp)).2.2
    (by intro s hs; simp at hs; rw [hs]; norm_num)
    (by intro c _hc; norm_num)

/-- Counterexample for C3 as stated: with a single chunk carrying no
embedding and a raw lexical score list `[-1]` (the BM25 library can
produce negative scores), the lexical maximum is not positive, the code
divides by the fallback 1 instead of zeroing the signal, and the returned
fused score is `-3/10`, outside `[0, 1]`. -/
theorem hybrid_search_normalization_counterexample :
    hybrid_search (fun _ _ => 0) (fun _ _ => [-1]) (.ok [])
        [⟨0, 0, 0, [], none, [], 0⟩] [] 3
      = .ok [(⟨0, 0, 0, [], none, [], 0⟩, -(3 / 10))] ∧
    ((-(3 / 10) : ℚ) < 0) := by
  constructor
  · simp [hybrid_search, sortByScore, combinedScores, fusedScore, maxVector, maxBm25,
      vectorScores, bm25Corpus, lookupVector, maxQ, embTruthy, extract_keywords, pySplit,
      splitAux, subNonWord, joinWords, keepWord, List.insertionSort, List.orderedInsert,
      List.enum, List.enumFrom]
    norm_num
  · norm_num

/-- C5 (confirmed).  `hybrid_search` returns at most `top_k` pairs, sorted
by descending fused score, and the sort is stable: two fused entries with
equal scores stay in the original chunk iteration order. -/
theorem hybrid_search_sorted_stable (cos : List ℚ → List ℚ → ℚ)
    (bm25Fn : List (List (List Nat)) → List (List Nat) → List ℚ)
    (qe : List ℚ) (chunks : List Chunk) (query : List Nat) (top_k : Nat)
    (res : List (Chunk × ℚ)) (x y : Chunk × ℚ)
    (hres : hybrid_search cos bm25Fn (.ok qe) chunks query top_k = .ok res)
    (hxy : x.2 = y.2)
    (hsub : List.Sublist [x, y] (combinedScores cos qe
      (bm25Fn (bm25Corpus chunks) (pySplit (extract_keywords query))) chunks)) :
    res.length ≤ top_k ∧
    res.Pairwise (fun a b => b.2 ≤ a.2) ∧
    List.Sublist [x, y] (sortByScore (combinedScores cos qe
      (bm25Fn (bm25Corpus chunks) (pySplit (extract_keywords query))) chunks)) := by
  have heq := hybrid_search_ok_eq cos bm25Fn qe chunks query top_k res hres
  refine ⟨?_, ?_, ?_⟩
  · rw [heq]
    simp [List.length_take]
  · rw [heq]
    have hsorted : List.Sorted (fun a b : Chunk × ℚ => b.2 ≤ a.2)
        (sortByScore (combinedScores cos qe
          (bm25Fn (bm25Corpus chunks) (pySplit (extract_keywords query))) chunks)) := by
      rw [sortByScore]
      exact List.sorted_insertionSort _ _
    exact List.Pairwise.sublist (List.take_sublist _ _) hsorted
  · rw [sortByScore]
    exact List.pair_sublist_insertionSort (le_of_eq hxy.symm) hsub

/-- Witness for C5: two chunks tying at fused score 0 are returned in the
original store order. -/
theorem hybrid_search_sorted_stable_witness :
    ([((⟨1, 0, 0, [], none, [], 0⟩ : Chunk), (0 : ℚ)),
      ((⟨2, 0, 0, [], none, [], 0⟩ : Chunk), (0 : ℚ))]).length ≤ 3 ∧
    ([((⟨1, 0, 0, [], none, [], 0⟩ : Chunk), (0 : ℚ)),
      ((⟨2, 0, 0, [], none, [], 0⟩ : Chunk), (0 : ℚ))]).Pairwise
        (fun a b => b.2 ≤ a.2) ∧
    List.Sublist
      [((⟨1, 0, 0, [], none, [], 0⟩ : Chunk), (0 : ℚ)),
       ((⟨2, 0, 0, [], none, [], 0⟩ : Chunk), (0 : ℚ))]
      (sortByScore (combinedScores (fun _ _ => 0) []
        ((fun _ _ => [0, 0]) (bm25Corpus [⟨1, 0, 0, [], none, [], 0⟩, ⟨2, 0, 0, [], none, [], 0⟩])
          (pySplit (extract_keywords [])))
        [⟨1, 0, 0, [], none, [], 0⟩, ⟨2, 0, 0, [], none, [], 0⟩])) := by
  have hcomb : combinedScores (fun _ _ => 0) []
      ((fun _ _ => [(0 : ℚ), 0]) (bm25Corpus [(⟨1, 0, 0, [], none, [], 0⟩ : Chunk),
          ⟨2, 0, 0, [], none, [], 0⟩])
        (pySplit (extract_keywords [])))
      [⟨1, 0, 0, [], none, [], 0⟩, ⟨2, 0, 0, [], none, [], 0⟩]
      = [(⟨1, 0, 0, [], none, [], 0⟩, 0), (⟨2, 0, 0, [], none, [], 0⟩, 0)] := by
    simp [combinedScores, fusedScore, maxVector, maxBm25, vectorScores, bm25Corpus,
      lookupVector, maxQ, embTruthy, extract_keywords, pySplit, splitAux, subNonWord,
      joinWords, keepWord, List.enum, List.enumFrom]
  have hev : hybrid_search (fun _ _ => (0 : ℚ)) (fun _ _ => [(0 : ℚ), 0]) (.ok [])
      [⟨1, 0, 0, [], none, [], 0⟩, ⟨2, 0, 0, [], none, [], 0⟩] [] 3
      = .ok [(⟨1, 0, 0, [], none, [], 0⟩, 0), (⟨2, 0, 0, [], none, [], 0⟩, 0)] := by
    simp [hybrid_search, sortByScore, combinedScores, fusedScore, maxVector, maxBm25,
      vectorScores, bm25Corpus, lookupVector, maxQ, embTruthy, extract_keywords, pySplit,
      splitAux, subNonWord, joinWords, keepWord, List.insertionSort, List.orderedInsert,
      List.enum, List.enumFrom]
  exact hybrid_search_sorted_stable (fun _ _ => (0 : ℚ)) (fun _ _ => [(0 : ℚ), 0]) []
    [⟨1, 0, 0, [], none, [], 0⟩, ⟨2, 0, 0, [], none, [], 0⟩] [] 3
    [(⟨1, 0, 0, [], none, [], 0⟩, 0), (⟨2, 0, 0, [], none, [], 0⟩, 0)]
    (⟨1, 0, 0, [], none, [], 0⟩, 0) (⟨2, 0, 0, [], none, [], 0⟩, 0)
    hev rfl (by rw [hcomb])

end RagCore

namespace RagCore

/-! ## Indexing orchestration: atomicity -/

theorem buildChunks_ok_shape (embed : List Nat → Except String (List ℚ))
    (encode decode : List Nat → List Nat) (newIds : Nat → Nat) (pid : Nat) :
    ∀ (ts : List (List Nat)) (i : Nat) (ncs : List Chunk),
      buildChunks embed encode decode newIds pid ts i = .ok ncs →
      ncs.length = ts.length ∧
      (∀ c ∈ ncs, c.notion_page_id = pid) ∧
      ncs.map (fun c => c.chunk_index) = List.range' i ts.length := by
  intro ts
  induction ts with
  | nil =>
    intro i ncs h
    simp only [buildChunks, Except.ok.injEq] at h
    subst h
    simp [List.range']
  | cons t ts ih =>
    intro i ncs h
    simp only [buildChunks] at h
    cases hemb : embed (decode t) with
    | error e => rw [hemb] at h; cases h
    | ok emb =>
      rw [hemb] at h
      cases hrec : buildChunks embed encode decode newIds pid ts (i + 1) with
      | error e => rw [hrec] at h; cases h
      | ok rest =>
        rw [hrec] at h
        simp only [Except.ok.injEq] at h
        subst h
        obtain ⟨hlen, hpid, hidx⟩ := ih (i + 1) rest hrec
        refine ⟨by simp [hlen], ?_, ?_⟩
        · intro c hc
          rcases List.mem_cons.mp hc with rfl | hc2
          · rfl
          · exact hpid c hc2
        · simp only [List.length_cons, List.map_cons]
          rw [List.range'_succ i ts.length 1]
          simp [hidx]

/-- C8 (confirmed).  `index_notion_page` on a clean session: if any
embedding call fails, the operation reports the error and the committed
chunk store is unchanged (the pending delete was never committed); if it
succeeds, one commit publishes the delete of the old chunks of the page
together with all the new chunks, the chunks of other pages are
untouched, the page owns exactly the new chunks with contiguous ordinals
`0 .. n-1`, and the returned count `n` is the number of chunks produced
by the chunker. -/
theorem index_notion_page_atomic (embed : List Nat → Except String (List ℚ))
    (encode decode : List Nat → List Nat) (newIds : Nat → Nat)
    (db : List Chunk) (pid : Nat) (content : List Nat) :
    (∀ e, (index_notion_page embed encode decode newIds ⟨db, db⟩ pid content).2 = .error e →
      (index_notion_page embed encode decode newIds ⟨db, db⟩ pid content).1.committed = db) ∧
    (∀ n, (index_notion_page embed encode decode newIds ⟨db, db⟩ pid content).2 = .ok n →
      n = (chunk_text (encode content)).length ∧
      (index_notion_page embed encode decode newIds ⟨db, db⟩ pid content).1.committed.filter
          (fun c => c.notion_page_id != pid)
        = db.filter (fun c => c.notion_page_id != pid) ∧
      ((index_notion_page embed encode decode newIds ⟨db, db⟩ pid content).1.committed.filter
          (fun c => c.notion_page_id == pid)).length = n ∧
      ((index_notion_page embed encode decode newIds ⟨db, db⟩ pid content).1.committed.filter
          (fun c => c.notion_page_id == pid)).map (fun c => c.chunk_index)
        = List.range n) := by
  cases hbuild : buildChunks embed encode decode newIds pid
      (chunk_text (encode content)) 0 with
  | error e =>
    constructor
    · intro e2 _h2
      simp only [index_notion_page, hbuild]
    · intro n hn
      simp only [index_notion_page, hbuild] at hn
      cases hn
  | ok ncs =>
    obtain ⟨hlen, hpid, hidx⟩ := buildChunks_ok_shape embed encode decode newIds pid
      (chunk_text (encode content)) 0 ncs hbuild
    constructor
    · intro e he
      simp only [index_notion_page, hbuild] at he
      cases he
    · intro n hn
      simp only [index_notion_page, hbuild, Except.ok.injEq] at hn
      subst hn
      have hcommitted : (index_notion_page embed encode decode newIds ⟨db, db⟩
          pid content).1.committed
          = db.filter (fun c => c.notion_page_id != pid) ++ ncs := by
        simp only [index_notion_page, hbuild]
        rfl
      have hncs_ne : ncs.filter (fun c => c.notion_page_id != pid) = [] := by
        apply List.filter_eq_nil_iff.mpr
        intro c hc
        simp [hpid c hc]
      have hncs_eq : ncs.filter (fun c => c.notion_page_id == pid) = ncs := by
        apply List.filter_eq_self.mpr
        intro c hc
        simp [hpid c hc]
      have hdb_ne : (db.filter (fun c => c.notion_page_id != pid)).filter
          (fun c => c.notion_page_id != pid) = db.filter (fun c => c.notion_page_id != pid) :=
        List.filter_eq_self.mpr (fun c hc => (List.mem_filter.mp hc).2)
      have hdb_eq : (db.filter (fun c => c.notion_page_id != pid)).filter
          (fun c => c.notion_page_id == pid) = [] := by
        apply List.filter_eq_nil_iff.mpr
        intro c hc
        have := (List.mem_filter.mp hc).2
        simp only [bne_iff_ne, ne_eq] at this
        simp [this]
      refine ⟨rfl, ?_, ?_, ?_⟩
      · rw [hcommitted, List.filter_append, hncs_ne, hdb_ne, List.append_nil]
      · rw [hcommitted, List.filter_append, hncs_eq, hdb_eq, List.nil_append, hlen]
      · rw [hcommitted, List.filter_append, hncs_eq, hdb_eq, List.nil_append, hidx]
        exact (List.range_eq_range' _).symm

/-- Witness for C8: a one-token document indexed with a succeeding
provider produces one chunk owned by the page. -/
theorem index_notion_page_atomic_witness :
    1 = (chunk_text ((fun l : List Nat => l) [97])).length ∧
    ((index_notion_page (fun _ => .ok [1]) (fun l => l) (fun l => l) (fun i => i + 10)
        ⟨[], []⟩ 5 [97]).1.committed.filter (fun c => c.notion_page_id == 5)).length = 1 := by
  have h := (index_notion_page_atomic (fun _ => .ok [1]) (fun l => l) (fun l => l)
    (fun i => i + 10) [] 5 [97]).2 1 rfl
  exact ⟨h.1, h.2.2.1⟩

end RagCore
